import Mathlib

/-!
Verification of the response-normalization and resilience layer of the
SatireChat backend (`api/generate.js`).

The JavaScript code is shallowly embedded: JS strings become `List Char`
(every string literal occurring in the program lies in the Basic
Multilingual Plane, where JS UTF-16 code-unit length coincides with
character count), fallible operations return `Option`/`Except`, and an
operation that can raise an uncaught exception is modelled with an
explicit `JsResult` outcome type.
-/

namespace SatireChat

/-- Characters matched by the JavaScript regular-expression class `\s`
(also the set removed by `String.prototype.trim`). -/
def isJsWs (c : Char) : Bool :=
  c.val = 9 || c.val = 10 || c.val = 11 || c.val = 12 || c.val = 13 ||
  c.val = 32 || c.val = 160 || c.val = 0x1680 ||
  (0x2000 ≤ c.val && c.val ≤ 0x200a) ||
  c.val = 0x2028 || c.val = 0x2029 || c.val = 0x202f || c.val = 0x205f ||
  c.val = 0x3000 || c.val = 0xfeff

/-- JS `String.prototype.trim`: drop leading and trailing whitespace. -/
def trimJS (s : List Char) : List Char :=
  ((s.dropWhile isJsWs).reverse.dropWhile isJsWs).reverse

/-- Worker for `collapseWs`: `prevWs` records whether the previous character
belonged to a whitespace run that has already emitted its single space. -/
def collapseWsAux (prevWs : Bool) : List Char → List Char
  | [] => []
  | c :: rest =>
      if isJsWs c then
        if prevWs then collapseWsAux true rest
        else ' ' :: collapseWsAux true rest
      else c :: collapseWsAux false rest

/-- JS `replace(/\s+/g, " ")`: each maximal whitespace run becomes one space. -/
def collapseWs (s : List Char) : List Char := collapseWsAux false s

/-- The backtick character (source line 58 strips code fences made of it). -/
def btk : Char := Char.ofNat 96

/-- Fuel-indexed worker for `stripFences`; the fuel only keeps the
recursion structural (each step consumes at least one character, so
`length + 1` fuel never runs out). -/
def stripFencesF : Nat → List Char → List Char
  | 0, _ => []
  | _ + 1, [] => []
  | f + 1, c :: rest =>
      if c = btk then
        match rest with
        | c2 :: c3 :: rest2 =>
            if c2 = btk ∧ c3 = btk then
              if rest2.take 4 = ['j', 's', 'o', 'n'] then stripFencesF f (rest2.drop 4)
              else stripFencesF f rest2
            else c :: stripFencesF f rest
        | _ => c :: stripFencesF f rest
      else c :: stripFencesF f rest

/-- JS `content.replace(/```json|```/g, "")`: scan left to right; at each
position prefer the 7-character match over the 3-character one; on a match
remove it and continue after it, otherwise keep one character and advance. -/
def stripFences (s : List Char) : List Char := stripFencesF (s.length + 1) s

/-- Does `needle` occur at the very start of `hay`? -/
def leadsWith : List Char → List Char → Bool
  | [], _ => true
  | _ :: _, [] => false
  | c :: cs, d :: ds => c = d && leadsWith cs ds

/-- JS `hay.includes(needle)`: `needle` occurs contiguously inside `hay`. -/
def containsSub (needle : List Char) : List Char → Bool
  | [] => needle.isEmpty
  | c :: rest => leadsWith needle (c :: rest) || containsSub needle rest

/-- Index of the last occurrence of `c` (used for JS `lastIndexOf`). -/
def lastIdx (c : Char) : List Char → Option Nat
  | [] => none
  | x :: xs =>
      match lastIdx c xs with
      | some i => some (i + 1)
      | none => if x = c then some 0 else none

/-- JS `s.lastIndexOf(c)` as an integer, `-1` when absent. -/
def lastIdxZ (s : List Char) (c : Char) : Int :=
  match lastIdx c s with
  | some i => (i : Int)
  | none => -1

/-- A JSON value as produced by `JSON.parse`.  Numbers keep their source
lexeme: no claim below depends on numeric re-formatting. -/
inductive JVal where
  | null
  | bool (b : Bool)
  | num (lex : List Char)
  | str (s : List Char)
  | arr (elems : List JVal)
  | obj (fields : List (List Char × JVal))

/-- JSON-text whitespace (the set skipped by `JSON.parse`). -/
def isJsonWs (c : Char) : Bool :=
  c.val = 9 || c.val = 10 || c.val = 13 || c.val = 32

/-- Skip JSON whitespace. -/
def skipWs (s : List Char) : List Char := s.dropWhile isJsonWs

/-- The double-quote character. -/
def qC : Char := Char.ofNat 34

/-- The backslash character. -/
def bsC : Char := Char.ofNat 92

/-- The opening-brace character. -/
def lbC : Char := Char.ofNat 123

/-- The closing-brace character. -/
def rbC : Char := Char.ofNat 125

/-- Hexadecimal digit value, for `\uXXXX` escapes. -/
def hexVal (c : Char) : Option Nat :=
  if '0' ≤ c ∧ c ≤ '9' then some (c.toNat - 48)
  else if 'a' ≤ c ∧ c ≤ 'f' then some (c.toNat - 87)
  else if 'A' ≤ c ∧ c ≤ 'F' then some (c.toNat - 55)
  else none

/-- Parse the body of a JSON string (the opening quote already consumed),
returning the decoded characters and the rest of the input.  A `\u` escape
naming a lone UTF-16 surrogate half falls outside the `Char` model and
decodes through `Char.ofNat`'s fallback; no claim involves such input. -/
def parseJStr : List Char → Option (List Char × List Char)
  | [] => none
  | c :: rest =>
      if c = qC then some ([], rest)
      else if c = bsC then
        match rest with
        | [] => none
        | e :: r2 =>
            if e = qC then (parseJStr r2).map (fun p => (qC :: p.1, p.2))
            else if e = bsC then (parseJStr r2).map (fun p => (bsC :: p.1, p.2))
            else if e = '/' then (parseJStr r2).map (fun p => ('/' :: p.1, p.2))
            else if e = 'b' then
              (parseJStr r2).map (fun p => (Char.ofNat 8 :: p.1, p.2))
            else if e = 'f' then
              (parseJStr r2).map (fun p => (Char.ofNat 12 :: p.1, p.2))
            else if e = 'n' then
              (parseJStr r2).map (fun p => (Char.ofNat 10 :: p.1, p.2))
            else if e = 'r' then
              (parseJStr r2).map (fun p => (Char.ofNat 13 :: p.1, p.2))
            else if e = 't' then
              (parseJStr r2).map (fun p => (Char.ofNat 9 :: p.1, p.2))
            else if e = 'u' then
              match r2 with
              | h1 :: h2 :: h3 :: h4 :: r3 =>
                  match hexVal h1, hexVal h2, hexVal h3, hexVal h4 with
                  | some a, some b, some c3, some d =>
                      (parseJStr r3).map
                        (fun p => (Char.ofNat (((a * 16 + b) * 16 + c3) * 16 + d) :: p.1, p.2))
                  | _, _, _, _ => none
              | _ => none
            else none
      else if c.val < 32 then none
      else (parseJStr rest).map (fun p => (c :: p.1, p.2))

/-- Parse the optional fraction part of a JSON number. -/
def parseJFrac (s : List Char) : Option (List Char × List Char) :=
  match s with
  | d :: rr =>
      if d = '.' then
        match rr with
        | e :: _ =>
            if e.isDigit then
              some (d :: rr.takeWhile Char.isDigit, rr.dropWhile Char.isDigit)
            else none
        | [] => none
      else some ([], s)
  | [] => some ([], s)

/-- Parse the optional exponent part of a JSON number. -/
def parseJExp (s : List Char) : Option (List Char × List Char) :=
  match s with
  | d :: rr =>
      if d = 'e' ∨ d = 'E' then
        let sgnRest :=
          match rr with
          | e :: rrr =>
              if e = '+' ∨ e = '-' then ([e], rrr)
              else (([] : List Char), rr)
          | [] => (([] : List Char), rr)
        match sgnRest.2 with
        | e :: _ =>
            if e.isDigit then
              some (d :: sgnRest.1 ++ sgnRest.2.takeWhile Char.isDigit,
                    sgnRest.2.dropWhile Char.isDigit)
            else none
        | [] => none
      else some ([], s)
  | [] => some ([], s)

/-- Parse a JSON number token, returning its lexeme and the rest. -/
def parseJNum (s : List Char) : Option (List Char × List Char) :=
  let negRest :=
    match s with
    | c :: r => if c = '-' then ([c], r) else (([] : List Char), s)
    | [] => (([] : List Char), s)
  match negRest.2 with
  | [] => none
  | c :: r =>
      if ¬ c.isDigit then none
      else
        let intRest :=
          if c = '0' then ([c], r)
          else (c :: r.takeWhile Char.isDigit, r.dropWhile Char.isDigit)
        (parseJFrac intRest.2).bind fun fr =>
          (parseJExp fr.2).map fun ex =>
            (negRest.1 ++ intRest.1 ++ fr.1 ++ ex.1, ex.2)

/-- Parse modes: a single value, the items of an array after `[`, or the
members of an object after `{` (in both cases the empty case is handled by
the caller).  Collapsing the three mutually recursive procedures into one
fuel-indexed function keeps the recursion structural, so that concrete
inputs evaluate by `rfl`/`decide`. -/
inductive PMode where
  | pv
  | pa
  | po

/-- Fuel-indexed recursive-descent JSON parser core. -/
def parseF : Nat → PMode → List Char → Option (JVal × List Char)
  | 0, _, _ => none
  | f + 1, PMode.pv, s =>
      match s with
      | [] => none
      | c :: r =>
          if c = qC then (parseJStr r).map (fun p => (JVal.str p.1, p.2))
          else if c = '[' then
            match skipWs r with
            | d :: r2 =>
                if d = ']' then some (JVal.arr [], r2)
                else parseF f PMode.pa (skipWs r)
            | [] => none
          else if c = lbC then
            match skipWs r with
            | d :: r2 =>
                if d = rbC then some (JVal.obj [], r2)
                else parseF f PMode.po (skipWs r)
            | [] => none
          else if leadsWith ['n', 'u', 'l', 'l'] s then some (JVal.null, s.drop 4)
          else if leadsWith ['t', 'r', 'u', 'e'] s then some (JVal.bool true, s.drop 4)
          else if leadsWith ['f', 'a', 'l', 's', 'e'] s then some (JVal.bool false, s.drop 5)
          else (parseJNum s).map (fun p => (JVal.num p.1, p.2))
  | f + 1, PMode.pa, s =>
      (parseF f PMode.pv (skipWs s)).bind fun p =>
        match skipWs p.2 with
        | d :: r2 =>
            if d = ',' then
              (parseF f PMode.pa r2).bind fun q =>
                match q.1 with
                | JVal.arr l => some (JVal.arr (p.1 :: l), q.2)
                | _ => none
            else if d = ']' then some (JVal.arr [p.1], r2)
            else none
        | [] => none
  | f + 1, PMode.po, s =>
      match skipWs s with
      | c :: r =>
          if c = qC then
            (parseJStr r).bind fun kp =>
              match skipWs kp.2 with
              | d :: r2 =>
                  if d = ':' then
                    (parseF f PMode.pv (skipWs r2)).bind fun p =>
                      match skipWs p.2 with
                      | e :: r3 =>
                          if e = ',' then
                            (parseF f PMode.po r3).bind fun q =>
                              match q.1 with
                              | JVal.obj l => some (JVal.obj ((kp.1, p.1) :: l), q.2)
                              | _ => none
                          else if e = rbC then some (JVal.obj [(kp.1, p.1)], r3)
                          else none
                      | [] => none
                  else none
              | [] => none
          else none
      | [] => none

/-- JS `JSON.parse` on a whole text: a single value surrounded by
whitespace; a parse failure (a thrown `SyntaxError`) is `none`. -/
def jsonParse (s : List Char) : Option JVal :=
  match parseF (s.length + 1) PMode.pv (skipWs s) with
  | some (v, rest) => if skipWs rest = [] then some v else none
  | none => none

/-- JS falsiness of a JSON value (`undefined` never occurs in parsed data).
A numeric literal is falsy exactly when its mantissa has no nonzero digit. -/
def jvalFalsy : JVal → Bool
  | JVal.null => true
  | JVal.bool b => !b
  | JVal.num lex =>
      ((lex.takeWhile (fun c => ¬ (c = 'e' ∨ c = 'E'))).filter Char.isDigit).all
        (fun c => c = '0')
  | JVal.str s => s.isEmpty
  | JVal.arr _ => false
  | JVal.obj _ => false

/-- JS property read on a parsed value: only objects carry own properties
here; `JSON.parse` keeps the last duplicate key, hence the reverse search. -/
def jsGetProp : JVal → List Char → Option JVal
  | JVal.obj fields, k => (fields.reverse.find? (fun p => decide (p.1 = k))).map (fun p => p.2)
  | _, _ => none

/-- JS `v[0]`: array element, single-character string, or object key "0". -/
def jsIndex0 : JVal → Option JVal
  | JVal.arr (v :: _) => some v
  | JVal.arr [] => none
  | JVal.str (c :: _) => some (JVal.str [c])
  | JVal.str [] => none
  | JVal.obj fields => (fields.reverse.find? (fun p => decide (p.1 = ['0']))).map (fun p => p.2)
  | _ => none

/-- Optional chaining `o?.k`: `undefined` (`none`) on a nullish receiver. -/
def chainProp (o : Option JVal) (k : List Char) : Option JVal :=
  match o with
  | some JVal.null => none
  | some v => jsGetProp v k
  | none => none

/-- Optional chaining `o?.[0]`. -/
def chainIndex0 (o : Option JVal) : Option JVal :=
  match o with
  | some JVal.null => none
  | some v => jsIndex0 v
  | none => none

mutual

/-- JS `String(v)`; arrays stringify by joining their elements with
commas, `null` elements joining as the empty string.  Numeric lexemes are
kept verbatim: JS would re-serialize the numeric value, but no claim
below evaluates a non-string `text` field. -/
def jsToString : JVal → List Char
  | JVal.str s => s
  | JVal.null => ("null").toList
  | JVal.bool b => if b then ("true").toList else ("false").toList
  | JVal.num lex => lex
  | JVal.obj _ => ("[object Object]").toList
  | JVal.arr l => List.intercalate [','] (jsToStrList l)

/-- Element strings of an array under JS `Array.prototype.join`. -/
def jsToStrList : List JVal → List (List Char)
  | [] => []
  | JVal.null :: rest => [] :: jsToStrList rest
  | v :: rest => jsToString v :: jsToStrList rest

end

/-- The `data` key of the accepted `{"data": [...]}` response shape. -/
def dataKey : List Char := ("data").toList

/-- The body of `parseLLMJson`'s `try` block on the parse outcome: accept
a bare array, or a truthy value whose `data` property is an array;
otherwise — including the caught `SyntaxError`, which is the `none`
case — null. -/
def acceptParsed : Option JVal → Option (List JVal)
  | some (JVal.arr l) => some l
  | some v =>
      if jvalFalsy v then none
      else
        match jsGetProp v dataKey with
        | some (JVal.arr l) => some l
        | _ => none
  | none => none

/-- Source lines 55-65, `parseLLMJson` on an actual string argument: strip
code fences, trim, `JSON.parse` inside `try`, accept a bare array or an
object with an array `data` field, otherwise (or on a parse error) null. -/
def parseLLMJson (content : List Char) : Option (List JVal) :=
  if content.isEmpty then none
  else acceptParsed (jsonParse (trimJS (stripFences content)))

/-- Outcome of a JS call that either returns or lets an exception escape. -/
inductive JsResult (α : Type) where
  | ret (a : α)
  | throw
deriving DecidableEq, Repr

/-- `parseLLMJson` as called with an arbitrary JS value: `!content` short
circuits falsy inputs, a truthy string is processed normally, and any
truthy non-string makes `content.replace` (source line 58, outside the
`try`) raise an uncaught `TypeError`. -/
def parseLLMJsonJS : JVal → JsResult (Option (List JVal))
  | JVal.str s => JsResult.ret (parseLLMJson s)
  | v => if jvalFalsy v then JsResult.ret none else JsResult.throw

/-- The `choices` key of the upstream envelope. -/
def choicesKey : List Char := ("choices").toList

/-- The `message` key of the upstream envelope. -/
def messageKey : List Char := ("message").toList

/-- The `content` key of the upstream envelope. -/
def contentKey : List Char := ("content").toList

/-- The `text` key of a content block (and of a turn object). -/
def textKey : List Char := ("text").toList

/-- The `speaker` key of a turn object. -/
def speakerKey : List Char := ("speaker").toList

/-- Source lines 247-250: `data?.choices?.[0]?.message?.content ??
data?.choices?.[0]?.message?.content?.[0]?.text ?? ""`. -/
def extractContent (data : JVal) : JVal :=
  let c1 := chainProp (chainProp (chainIndex0 (chainProp (some data) choicesKey)) messageKey)
              contentKey
  let c2 := chainProp (chainIndex0 c1) textKey
  match c1 with
  | some JVal.null =>
      (match c2 with
       | some JVal.null => JVal.str []
       | some v => v
       | none => JVal.str [])
  | some v => v
  | none =>
      match c2 with
      | some JVal.null => JVal.str []
      | some v => v
      | none => JVal.str []

/-- Source lines 67-70, `EMPATHY_TOKENS`. -/
def EMPATHY_TOKENS : List (List Char) :=
  [("わかる").toList, ("それな").toList, ("たしかに").toList, ("確かに").toList,
   ("そうだね").toList, ("なるほど").toList, ("共感する").toList, ("ほんと").toList,
   ("本当").toList, ("まあね").toList, ("同感").toList, ("そうなんだよ").toList]

/-- Does the text contain one of the empathy marker phrases? -/
def hasEmpathy (text : List Char) : Bool :=
  EMPATHY_TOKENS.any (fun t => containsSub t text)

/-- Source lines 72-77, `ensureEmpathy`. -/
def ensureEmpathy (text : List Char) : List Char :=
  if hasEmpathy text then text
  else ("わかる、").toList ++ text

/-- The filler appended when a text is below 10 characters. -/
def fillerPhrase : List Char := ("…だよね。").toList

/-- The trailing phrase of the second padding stage. -/
def hanashiPhrase : List Char := ("の話だけどさ").toList

/-- Source lines 85-90: the largest `lastIndexOf` over the four Japanese
punctuation marks, `-1` when none occurs. -/
def lastPuncZ (cut : List Char) : Int :=
  max (max (lastIdxZ cut '。') (lastIdxZ cut '、')) (max (lastIdxZ cut '！') (lastIdxZ cut '？'))

/-- Source lines 80-103, `clampLength`. -/
def clampLength (text word : List Char) : List Char :=
  let t0 := collapseWs (trimJS text)
  let t1 :=
    if 70 < t0.length then
      let cut := t0.take 70
      let lp := lastPuncZ cut
      if 10 ≤ lp then cut.take (lp.toNat + 1) else cut
    else t0
  if t1.length < 10 then
    let t2 := (t1 ++ fillerPhrase).take 70
    if t2.length < 10 then
      let t3 := t2 ++ word ++ hanashiPhrase
      if 70 < t3.length then t3.take 70 else t3
    else t2
  else t1

/-- Does the text end in one of `。！？!?` (regex `[。！？!?]$`)? -/
def endsPunc (t : List Char) : Bool :=
  match t.getLast? with
  | some c => c = '。' || c = '！' || c = '？' || c = '!' || c = '?'
  | none => false

/-- Source lines 105-113, `enforceConstraints`. -/
def enforceConstraints (text word : List Char) : List Char :=
  let t1 := clampLength (ensureEmpathy text) word
  let t2 := if 70 < t1.length then t1.take 70 else t1
  if ¬ endsPunc t2 ∧ t2.length ≤ 68 then t2 ++ ['。'] else t2

/-- One dialogue turn. -/
structure Turn where
  speaker : List Char
  text : List Char
deriving DecidableEq, Repr

/-- The fixed closing line of turn 19. -/
def closingLine : List Char := ("そうだね。").toList

/-- `i % 2 === 0 ? "A" : "B"` (source line 122). -/
def speakerAt (i : Nat) : List Char := if i % 2 = 0 then ['A'] else ['B']

/-- Source lines 118-119: `(Array.isArray(items) ? items : [])[i] || {}`
followed by `String(e?.text ?? "")`.  A non-array `items` value is the
`none` case. -/
def rawTextOf (items : Option (List JVal)) (i : Nat) : List Char :=
  let arr := items.getD []
  let e :=
    match arr.get? i with
    | some v => if jvalFalsy v then JVal.obj [] else v
    | none => JVal.obj []
  match jsGetProp e textKey with
  | some JVal.null => []
  | some v => jsToString v
  | none => []

/-- One slot of the fixed-length-20 working array (source lines 117-125). -/
def baseTurn (items : Option (List JVal)) (word : List Char) (i : Nat) : Turn :=
  Turn.mk (speakerAt i) (enforceConstraints (rawTextOf items i) word)

/-- The working array itself. -/
def base20 (items : Option (List JVal)) (word : List Char) : List Turn :=
  (List.range 20).map (baseTurn items word)

/-- Source line 128: `base[19].text = "そうだね。"`.  Index 19 is odd, so
its (unchanged) speaker is the literal `"B"` that `speakerAt 19` yields. -/
def withClosing (items : Option (List JVal)) (word : List Char) : List Turn :=
  (base20 items word).set 19 (Turn.mk (speakerAt 19) closingLine)

/-- The length filter of source lines 131-133, applied at original index
`i`: index 19 must equal the closing line, every other text must be truthy
with length in `[10, 70]`. -/
def keepTurn (i : Nat) (t : Turn) : Bool :=
  if i = 19 then decide (t.text = closingLine)
  else (!t.text.isEmpty) && decide (10 ≤ t.text.length) && decide (t.text.length ≤ 70)

/-- JS `Array.prototype.filter` with the element's original index. -/
def filterWithIdx (p : Nat → Turn → Bool) : Nat → List Turn → List Turn
  | _, [] => []
  | i, t :: ts =>
      if p i t then t :: filterWithIdx p (i + 1) ts else filterWithIdx p (i + 1) ts

/-- Source lines 115-136, `sanitizeAndCoerce20`. -/
def sanitizeAndCoerce20 (items : Option (List JVal)) (word : List Char) :
    Option (List Turn) :=
  let cleaned := filterWithIdx keepTurn 0 (withClosing items word)
  if cleaned.length = 20 then some cleaned else none

/-- Source lines 260-263: the handler's status from the enforcer's result
(`502` upstream-format failure versus `200` success). -/
def respondWithDialogue (out : Option (List JVal)) (word : List Char) : Nat :=
  match sanitizeAndCoerce20 out word with
  | none => 502
  | some _ => 200

/-- A JS error as observed by `withRetry` (source lines 38-47): optional
`status`, optional `response.status`, `message`, and `name`. -/
structure JsError where
  status : Option Nat
  responseStatus : Option Nat
  message : List Char
  name : List Char
deriving DecidableEq, Repr

/-- A JS regex word character, for the `\b` boundary of `/\b429\b/`. -/
def isWordChar (c : Char) : Bool :=
  ('a' ≤ c && c ≤ 'z') || ('A' ≤ c && c ≤ 'Z') || ('0' ≤ c && c ≤ '9') || c = '_'

/-- Does `\b429\b` match somewhere?  `prev` is the character before the
current position (`none` at the start of the string). -/
def hasBounded429 : Option Char → List Char → Bool
  | _, [] => false
  | prev, c :: rest =>
      (decide (c = '4') && decide (rest.take 2 = ['2', '9']) &&
        (match prev with
         | none => true
         | some p => !(isWordChar p)) &&
        (match rest.drop 2 with
         | [] => true
         | q :: _ => !(isWordChar q)))
      || hasBounded429 (some c) rest

/-- Does `5\d\d` match somewhere? -/
def has5dd : List Char → Bool
  | [] => false
  | c :: rest =>
      (decide (c = '5') &&
        (match rest with
         | b :: c2 :: _ => b.isDigit && c2.isDigit
         | _ => false))
      || has5dd rest

/-- The regex test of source line 30: `/(?:\b429\b|5\d\d)/.test(msg)`. -/
def msgMatches429or5xx (msg : List Char) : Bool :=
  hasBounded429 none msg || has5dd msg

/-- Source lines 25-31, `isRetryableStatus`.  A JS `status` argument is a
number or `undefined`; `!status` is true for `undefined` and `0`. -/
def isRetryableStatus (status : Option Nat) (msg : List Char) : Bool :=
  match status with
  | none => false
  | some n =>
      if n = 0 then false
      else if n = 429 then true
      else if 500 ≤ n ∧ n < 600 then true
      else msgMatches429or5xx msg

/-- Source line 40: `e?.status || e?.response?.status` (`||` falls through
on the falsy status `0`). -/
def jsOrStatus (a b : Option Nat) : Option Nat :=
  match a with
  | some n => if n = 0 then b else some n
  | none => b

/-- The retry decision of source line 42 for an error `e`. -/
def shouldRetry (e : JsError) : Bool :=
  isRetryableStatus (jsOrStatus e.status e.responseStatus) e.message

/-- Observable outcome of `withRetry`: the returned value or the thrown
error (`Except.error none` models the `throw lastErr` with `lastErr`
still `undefined`, possible only when zero attempts are allowed), the
backoff waits performed in order, and how many times `fn` was invoked. -/
structure RetryResult (α : Type) where
  result : Except (Option JsError) α
  waits : List Nat
  calls : Nat

/-- Source lines 33-52, the `for` loop of `withRetry`: `remaining` is
`times - i` (the loop runs while `i < times`), kept as explicit fuel so
that the recursion is structural. -/
def withRetryLoop {α : Type} (fn : Nat → Except JsError α) (times : Nat) :
    Nat → Nat → Option JsError → RetryResult α
  | 0, _, lastErr => RetryResult.mk (Except.error lastErr) [] 0
  | r + 1, i, _ =>
      match fn i with
      | Except.ok v => RetryResult.mk (Except.ok v) [] 1
      | Except.error e =>
          if shouldRetry e ∧ i < times - 1 then
            let res := withRetryLoop fn times r (i + 1) (some e)
            RetryResult.mk res.result (400 * 2 ^ i :: res.waits) (res.calls + 1)
          else RetryResult.mk (Except.error (some e)) [] 1

/-- Source lines 33-52, `withRetry`. -/
def withRetry {α : Type} (fn : Nat → Except JsError α) (times : Nat) : RetryResult α :=
  withRetryLoop fn times times 0 none

/-- The `name` of an abort exception raised by `AbortController`. -/
def abortName : List Char := ("AbortError").toList

/-- Source line 183: the shared timeout in milliseconds. -/
def TIMEOUT_MS : Nat := 8000

/-- An HTTP error reply of the handler. -/
structure HttpReply where
  status : Nat
  errorText : List Char
deriving DecidableEq, Repr

/-- Source lines 266-272: the handler's `catch` block maps an `AbortError`
to `504 Upstream timeout` and every other escaped exception to `500`. -/
def handlerCatch (e : JsError) : HttpReply :=
  if e.name = abortName then HttpReply.mk 504 (("Upstream timeout").toList)
  else HttpReply.mk 500 (("Internal Server Error").toList)

/-- Turns rendered back into the JSON objects the handler would emit,
used to state idempotence of the enforcer. -/
def turnsToItems (d : List Turn) : List JVal :=
  d.map (fun t => JVal.obj [(speakerKey, JVal.str t.speaker), (textKey, JVal.str t.text)])

/-- Candidate turn objects with strictly alternating speakers (A at even
indices) carrying the given texts. -/
def mkItems (texts : List (List Char)) : List JVal :=
  texts.enum.map (fun p =>
    JVal.obj [(speakerKey, JVal.str (speakerAt p.1)), (textKey, JVal.str p.2)])

/-! ### Length facts about the repair pipeline -/

theorem lastIdx_lt_length {c : Char} :
    ∀ {s : List Char} {i : Nat}, lastIdx c s = some i → i < s.length := by
  intro s
  induction s with
  | nil => intro i h; simp [lastIdx] at h
  | cons x xs ih =>
      intro i h
      simp only [lastIdx] at h
      cases hx : lastIdx c xs with
      | some j =>
          rw [hx] at h
          have hj := ih hx
          simp only [Option.some.injEq] at h
          simp [← h, List.length_cons]
          omega
      | none =>
          rw [hx] at h
          by_cases hxc : x = c
          · simp [hxc] at h
            simp [← h, List.length_cons]
          · simp [hxc] at h

theorem lastIdxZ_lt (s : List Char) (c : Char) : lastIdxZ s c < (s.length : Int) := by
  unfold lastIdxZ
  cases h : lastIdx c s with
  | none =>
      simp only [h]
      have : (0 : Int) ≤ s.length := Int.natCast_nonneg _
      omega
  | some i =>
      simp only [h]
      have hi := lastIdx_lt_length h
      omega

theorem lastPuncZ_lt (cut : List Char) : lastPuncZ cut < (cut.length : Int) := by
  unfold lastPuncZ
  exact max_lt (max_lt (lastIdxZ_lt cut '。') (lastIdxZ_lt cut '、'))
    (max_lt (lastIdxZ_lt cut '！') (lastIdxZ_lt cut '？'))

theorem clampLength_len (text word : List Char) :
    10 ≤ (clampLength text word).length ∧ (clampLength text word).length ≤ 70 := by
  have hf : fillerPhrase.length = 5 := rfl
  have hh : hanashiPhrase.length = 6 := rfl
  simp only [clampLength]
  set t0 := collapseWs (trimJS text) with ht0
  by_cases h70 : 70 < t0.length
  · rw [if_pos h70]
    have hcut : (t0.take 70).length = 70 := by
      rw [List.length_take]; omega
    have hlt := lastPuncZ_lt (t0.take 70)
    rw [hcut] at hlt
    by_cases hlp : (10 : Int) ≤ lastPuncZ (t0.take 70)
    · rw [if_pos hlp]
      have hlen : ((t0.take 70).take ((lastPuncZ (t0.take 70)).toNat + 1)).length
          = (lastPuncZ (t0.take 70)).toNat + 1 := by
        rw [List.length_take, hcut]; omega
      rw [if_neg (by omega)]
      omega
    · rw [if_neg hlp]
      rw [if_neg (by omega)]
      omega
  · rw [if_neg h70]
    by_cases hlow : t0.length < 10
    · rw [if_pos hlow]
      have h2 : ((t0 ++ fillerPhrase).take 70).length = t0.length + 5 := by
        rw [List.length_take, List.length_append, hf]; omega
      by_cases hlow2 : ((t0 ++ fillerPhrase).take 70).length < 10
      · rw [if_pos hlow2]
        have h3 : ((t0 ++ fillerPhrase).take 70 ++ word ++ hanashiPhrase).length
            = t0.length + 5 + word.length + 6 := by
          rw [List.length_append, List.length_append, h2, hh]
        by_cases h71 : 70 < ((t0 ++ fillerPhrase).take 70 ++ word ++ hanashiPhrase).length
        · rw [if_pos h71]
          rw [List.length_take]
          omega
        · rw [if_neg h71]
          omega
      · rw [if_neg hlow2]
        omega
    · rw [if_neg hlow]
      omega

theorem enforceConstraints_len (text word : List Char) :
    10 ≤ (enforceConstraints text word).length ∧ (enforceConstraints text word).length ≤ 70 := by
  simp only [enforceConstraints]
  have h1 := clampLength_len (ensureEmpathy text) word
  set t1 := clampLength (ensureEmpathy text) word with ht1
  have ht2 : (if 70 < t1.length then List.take 70 t1 else t1) = t1 := if_neg (by omega)
  rw [ht2]
  by_cases h2 : ¬ endsPunc t1 ∧ t1.length ≤ 68
  · rw [if_pos h2]
    rw [List.length_append]
    simp only [List.length_singleton]
    omega
  · rw [if_neg h2]
    exact h1

/-! ### The enforcer always accepts the repaired working array -/

theorem filterWithIdx_all (p : Nat → Turn → Bool) :
    ∀ (l : List Turn) (i : Nat),
      (∀ j t, l.get? j = some t → p (i + j) t = true) →
      filterWithIdx p i l = l := by
  intro l
  induction l with
  | nil => intro i _; rfl
  | cons t ts ih =>
      intro i h
      have h0 : p i t = true := by
        have := h 0 t (by simp)
        simpa using this
      simp only [filterWithIdx, h0, if_pos]
      rw [ih (i + 1)]
      intro j u hj
      have hmain := h (j + 1) u (by simpa using hj)
      have harith : i + (j + 1) = i + 1 + j := by omega
      rwa [harith] at hmain

theorem length_base20 (items : Option (List JVal)) (word : List Char) :
    (base20 items word).length = 20 := by
  unfold base20; simp

theorem base20_get? (items : Option (List JVal)) (word : List Char) {i : Nat}
    (hi : i < 20) : (base20 items word).get? i = some (baseTurn items word i) := by
  unfold base20
  rw [List.get?_map, List.get?_range hi]
  rfl

theorem length_withClosing (items : Option (List JVal)) (word : List Char) :
    (withClosing items word).length = 20 := by
  unfold withClosing; rw [List.length_set, length_base20]

theorem withClosing_get? (items : Option (List JVal)) (word : List Char) {i : Nat}
    (hi : i < 20) :
    (withClosing items word).get? i =
      some (if i = 19 then Turn.mk (speakerAt 19) closingLine else baseTurn items word i) := by
  unfold withClosing
  by_cases h19 : i = 19
  · subst h19
    rw [List.get?_set_eq_of_lt _ (by rw [length_base20]; omega)]
    simp
  · rw [List.get?_set_ne _ _ (Ne.symm h19)]
    rw [base20_get? items word hi]
    simp [h19]

theorem keep_all (items : Option (List JVal)) (word : List Char) :
    ∀ j t, (withClosing items word).get? j = some t → keepTurn (0 + j) t = true := by
  intro j t hj
  have hjlt : j < 20 := by
    by_contra hge
    have hnone : (withClosing items word).get? j = none := by
      rw [List.get?_eq_none]
      rw [length_withClosing]
      omega
    rw [hnone] at hj
    exact Option.noConfusion hj
  rw [withClosing_get? items word hjlt] at hj
  have ht := Option.some.inj hj
  by_cases h19 : j = 19
  · subst h19
    rw [if_pos rfl] at ht
    subst ht
    rfl
  · rw [if_neg h19] at ht
    subst ht
    have hlen := enforceConstraints_len (rawTextOf items j) word
    rw [Nat.zero_add]
    unfold keepTurn
    rw [if_neg h19]
    unfold baseTurn
    dsimp only
    have hne : (enforceConstraints (rawTextOf items j) word).isEmpty = false := by
      cases hE : enforceConstraints (rawTextOf items j) word with
      | nil => rw [hE] at hlen; simp at hlen
      | cons a l => rfl
    rw [hne, decide_eq_true hlen.1, decide_eq_true hlen.2]
    rfl

theorem sanitize_total (items : Option (List JVal)) (word : List Char) :
    sanitizeAndCoerce20 items word = some (withClosing items word) := by
  unfold sanitizeAndCoerce20
  rw [filterWithIdx_all keepTurn _ 0 (keep_all items word)]
  rw [if_pos (length_withClosing items word)]

/-- The two projections of a working-array slot. -/
theorem baseTurn_speaker (items : Option (List JVal)) (word : List Char) (i : Nat) :
    (baseTurn items word i).speaker = speakerAt i := by
  rw [show baseTurn items word i
      = Turn.mk (speakerAt i) (enforceConstraints (rawTextOf items i) word) from rfl]

/-- The text of a working-array slot is the repaired candidate text. -/
theorem baseTurn_text (items : Option (List JVal)) (word : List Char) (i : Nat) :
    (baseTurn items word i).text = enforceConstraints (rawTextOf items i) word := by
  rw [show baseTurn items word i
      = Turn.mk (speakerAt i) (enforceConstraints (rawTextOf items i) word) from rfl]

/-- C1: for every candidates input and topic word, whenever
`sanitizeAndCoerce20` returns a non-null Dialogue, that Dialogue has
exactly 20 turns, the turn at index `i` has speaker `"A"` for even `i` and
`"B"` for odd `i`, every turn at indices 0 through 18 has text length in
`[10, 70]`, and the turn at index 19 has text exactly `そうだね。`. -/
theorem c1_enforced_dialogue_shape (items : Option (List JVal)) (word : List Char)
    (d : List Turn) (h : sanitizeAndCoerce20 items word = some d) :
    d.length = 20 ∧
    (∀ i t, d.get? i = some t →
      (t.speaker = if i % 2 = 0 then ['A'] else ['B']) ∧
      (i ≠ 19 → 10 ≤ t.text.length ∧ t.text.length ≤ 70)) ∧
    (∀ t, d.get? 19 = some t → t.text = closingLine) := by
  rw [sanitize_total items word] at h
  have hd := Option.some.inj h
  subst hd
  refine ⟨length_withClosing items word, ?_, ?_⟩
  · intro i t hit
    have hilt : i < 20 := by
      by_contra hge
      have hnone : (withClosing items word).get? i = none := by
        rw [List.get?_eq_none, length_withClosing]
        omega
      rw [hnone] at hit
      exact Option.noConfusion hit
    rw [withClosing_get? items word hilt] at hit
    have ht := Option.some.inj hit
    by_cases h19 : i = 19
    · subst h19
      rw [if_pos rfl] at ht
      subst ht
      exact ⟨rfl, fun hne => absurd rfl hne⟩
    · rw [if_neg h19] at ht
      subst ht
      refine ⟨?_, fun _ => ?_⟩
      · rw [baseTurn_speaker]
        unfold speakerAt
        rfl
      · rw [baseTurn_text]
        exact enforceConstraints_len (rawTextOf items i) word
  · intro t h19
    rw [withClosing_get? items word (by omega)] at h19
    have ht := Option.some.inj h19
    rw [if_pos rfl] at ht
    subst ht
    rfl

/-- C1 witness: the concrete run on a null candidates list and the empty
topic word satisfies the hypothesis and hence the shape property. -/
theorem c1_enforced_dialogue_shape_witness :
    (withClosing none []).length = 20 ∧
    (∀ i t, (withClosing none []).get? i = some t →
      (t.speaker = if i % 2 = 0 then ['A'] else ['B']) ∧
      (i ≠ 19 → 10 ≤ t.text.length ∧ t.text.length ≤ 70)) ∧
    (∀ t, (withClosing none []).get? 19 = some t → t.text = closingLine) :=
  c1_enforced_dialogue_shape none [] (withClosing none []) (by rfl)

/-- C2: for every candidates input and topic word, `sanitizeAndCoerce20`
returns either a Dialogue of exactly 20 turns or null, never any other
length. -/
theorem c2_exactly_twenty_or_null (items : Option (List JVal)) (word : List Char) :
    sanitizeAndCoerce20 items word = none ∨
    ∃ d, sanitizeAndCoerce20 items word = some d ∧ d.length = 20 :=
  Or.inr ⟨withClosing items word, sanitize_total items word, length_withClosing items word⟩

/-- C3: for every candidates input (null or any list of JSON values) and
every topic word, the repair stages always succeed: `sanitizeAndCoerce20`
returns a non-null 20-turn Dialogue, so the null branch and the handler's
502 upstream-format response are unreachable from this step. -/
theorem c3_repair_never_fails (items : Option (List JVal)) (word : List Char) :
    (∃ d, sanitizeAndCoerce20 items word = some d ∧ d.length = 20) ∧
    respondWithDialogue items word = 200 := by
  refine ⟨⟨withClosing items word, sanitize_total items word, length_withClosing items word⟩, ?_⟩
  unfold respondWithDialogue
  rw [sanitize_total items word]

/-- C4: evaluation of the code's retryability test at the claim's boundary
cases.  The claim says a failure with no status but a message matching a
429/5xx pattern is retryable, yet `isRetryableStatus` returns `false`
(the early `if (!status) return false` fires before the message check its
own comment announces); conversely a failure with available status 400
whose message matches a 5xx pattern is classified retryable by the code
although the claim says the message is only consulted when no status is
available. -/
theorem c4_retryable_eval :
    isRetryableStatus none (("429").toList) = false ∧
    msgMatches429or5xx (("429").toList) = true ∧
    isRetryableStatus (some 400) (("Upstream 502: Bad Gateway").toList) = true := by
  refine ⟨rfl, by decide, by decide⟩

/-- Full characterisation of the retry loop: if attempts `i ≤ j < k` fail
retryably starting from slot `i` and attempt `k` is final (success,
non-retryable failure, or the last allowed slot), the loop performs
exactly the attempts `i..k` with the doubling backoff waits in between
and returns attempt `k`'s outcome. -/
theorem withRetryLoop_spec {α : Type} (fn : Nat → Except JsError α) (times : Nat) :
    ∀ (r i : Nat) (le : Option JsError) (k : Nat),
      i + r = times → i ≤ k → k < times →
      (∀ j, i ≤ j → j < k → ∃ e, fn j = Except.error e ∧ shouldRetry e = true) →
      ((∃ v, fn k = Except.ok v) ∨ (∃ e, fn k = Except.error e ∧ shouldRetry e = false) ∨
        k = times - 1) →
      withRetryLoop fn times r i le =
        RetryResult.mk ((fn k).mapError some)
          ((List.range' i (k - i)).map (fun j => 400 * 2 ^ j)) (k - i + 1) := by
  intro r
  induction r with
  | zero =>
      intro i le k hsum hik hk _ _
      omega
  | succ r ih =>
      intro i le k hsum hik hk hfail hstop
      by_cases hik2 : i = k
      · subst hik2
        simp only [withRetryLoop]
        cases hfk : fn i with
        | ok v =>
            simp [Nat.sub_self, Except.mapError]
        | error e =>
            have hnr : ¬ (shouldRetry e = true ∧ i < times - 1) := by
              rcases hstop with ⟨v, hv⟩ | ⟨e2, he2, hr2⟩ | hlast
              · rw [hfk] at hv; exact absurd hv (by simp)
              · rw [hfk] at he2
                have := Except.error.inj he2
                subst this
                intro hc
                rw [hr2] at hc
                exact Bool.noConfusion hc.1
              · omega
            dsimp only
            rw [if_neg hnr]
            simp [Nat.sub_self, Except.mapError]
      · have hik3 : i < k := Nat.lt_of_le_of_ne hik hik2
        obtain ⟨e, hfe, hre⟩ := hfail i (Nat.le_refl i) hik3
        simp only [withRetryLoop]
        rw [hfe]
        dsimp only
        have hcond : shouldRetry e = true ∧ i < times - 1 := ⟨hre, by omega⟩
        rw [if_pos hcond]
        rw [ih (i + 1) (some e) k (by omega) (by omega) hk
          (fun j hj1 hj2 => hfail j (by omega) hj2) hstop]
        dsimp only
        have hr1 : k - i = (k - (i + 1)) + 1 := by omega
        rw [hr1, List.range'_succ]
        simp

/-- C5: for every attempt function and allowed attempt count, `withRetry`
invokes the attempt function at most `times` times; each retried attempt
`i` contributes a wait of exactly `400 * 2 ^ i` ms (400, 800, 1600, …, no
jitter) and no wait follows the final attempt; a non-retryable failure or
a success at attempt `k` stops the loop there; and the final attempt's
outcome (value or last observed error) is returned or propagated as-is. -/
theorem c5_retry_backoff {α : Type} (fn : Nat → Except JsError α) (times k : Nat)
    (hk : k < times)
    (hfail : ∀ j, j < k → ∃ e, fn j = Except.error e ∧ shouldRetry e = true)
    (hstop : (∃ v, fn k = Except.ok v) ∨ (∃ e, fn k = Except.error e ∧ shouldRetry e = false) ∨
      k = times - 1) :
    (withRetry fn times).calls = k + 1 ∧ (withRetry fn times).calls ≤ times ∧
    (withRetry fn times).waits = (List.range k).map (fun j => 400 * 2 ^ j) ∧
    (withRetry fn times).result = (fn k).mapError some := by
  unfold withRetry
  rw [withRetryLoop_spec fn times times 0 none k (by omega) (by omega) hk
    (fun j _ hj => hfail j hj) hstop]
  refine ⟨by simp, by simp; omega, ?_, rfl⟩
  rw [List.range_eq_range']
  simp

/-- The concrete attempt function of the spec's backoff example: attempts
0 and 1 fail with status 503, attempt 2 succeeds. -/
def fnRetryW : Nat → Except JsError Nat := fun j =>
  if j ≤ 1 then Except.error (JsError.mk (some 503) none [] (("Error").toList))
  else Except.ok 7

/-- C5 witness: with 3 allowed attempts and 503 failures on attempts 0 and
1, the observed waits are 400 ms then 800 ms, three calls are made, and
attempt 2's success is returned. -/
theorem c5_retry_backoff_witness :
    (withRetry fnRetryW 3).calls = 3 ∧ (withRetry fnRetryW 3).calls ≤ 3 ∧
    (withRetry fnRetryW 3).waits = [400, 800] ∧
    (withRetry fnRetryW 3).result = Except.ok 7 :=
  c5_retry_backoff fnRetryW 3 2 (by omega)
    (fun j hj =>
      ⟨JsError.mk (some 503) none [] (("Error").toList),
        by unfold fnRetryW; rw [if_pos (by omega)], by decide⟩)
    (Or.inl ⟨7, rfl⟩)

/-- C10: the shared timeout is 8000 ms, and when the resulting AbortError
escapes the retry loop the handler's catch block answers HTTP 504 with a
timeout error, distinct from the generic 500 internal-error response that
every other unclassified exception receives. -/
theorem c10_abort_maps_to_504 (e : JsError) (h : e.name = abortName) :
    TIMEOUT_MS = 8000 ∧
    handlerCatch e = HttpReply.mk 504 (("Upstream timeout").toList) ∧
    (handlerCatch e).status ≠ 500 ∧
    (∀ e2 : JsError, e2.name ≠ abortName →
      handlerCatch e2 = HttpReply.mk 500 (("Internal Server Error").toList)) := by
  refine ⟨rfl, ?_, ?_, ?_⟩
  · unfold handlerCatch
    rw [if_pos h]
  · unfold handlerCatch
    rw [if_pos h]
    decide
  · intro e2 h2
    unfold handlerCatch
    rw [if_neg h2]

/-- C10 witness: a concrete escaped AbortError yields the 504 reply. -/
theorem c10_abort_maps_to_504_witness :
    TIMEOUT_MS = 8000 ∧
    handlerCatch (JsError.mk none none [] abortName)
      = HttpReply.mk 504 (("Upstream timeout").toList) ∧
    (handlerCatch (JsError.mk none none [] abortName)).status ≠ 500 ∧
    (∀ e2 : JsError, e2.name ≠ abortName →
      handlerCatch e2 = HttpReply.mk 500 (("Internal Server Error").toList)) :=
  c10_abort_maps_to_504 (JsError.mk none none [] abortName) rfl

/-- An upstream envelope whose content is a one-element list of content
blocks carrying `text: "hello"`. -/
def envBlocks : JVal :=
  JVal.obj [(choicesKey, JVal.arr [JVal.obj [(messageKey,
    JVal.obj [(contentKey,
      JVal.arr [JVal.obj [(textKey, JVal.str (("hello").toList))]])])]])]

/-- The same envelope with a plain string content. -/
def envString : JVal :=
  JVal.obj [(choicesKey, JVal.arr [JVal.obj [(messageKey,
    JVal.obj [(contentKey, JVal.str (("hello").toList))])]])]

/-- C6 (code bug evaluation): the extraction handles the plain-string
content shape, but for the one-element list-of-blocks shape the `??` chain
returns the array itself — an array is never nullish, so the
`content?.[0]?.text` fallback is unreachable — and the handler then feeds
that array to `parseLLMJson`, whose `content.replace` raises an uncaught
TypeError instead of parsing the block's text. -/
theorem c6_extraction_eval :
    extractContent envString = JVal.str (("hello").toList) ∧
    extractContent envBlocks
      = JVal.arr [JVal.obj [(textKey, JVal.str (("hello").toList))]] ∧
    parseLLMJsonJS (extractContent envBlocks) = JsResult.throw := by
  refine ⟨rfl, rfl, rfl⟩

/-- Is the parsed value a bare array? -/
def isArrJ : JVal → Bool
  | JVal.arr _ => true
  | _ => false

/-- Does the parsed value carry an array-valued `data` property? -/
def dataFieldArr (v : JVal) : Bool :=
  match jsGetProp v dataKey with
  | some (JVal.arr _) => true
  | _ => false

/-- A parse result that is neither a bare array nor an object with an
array `data` field is rejected as null. -/
theorem acceptParsed_not_accepted (v : JVal) (hna : isArrJ v = false)
    (hnd : dataFieldArr v = false) : acceptParsed (some v) = none := by
  cases v with
  | arr l => exact absurd hna (by simp [isArrJ])
  | null => rfl
  | bool b => cases b <;> rfl
  | num lex =>
      unfold acceptParsed
      dsimp only
      by_cases hf : jvalFalsy (JVal.num lex) = true
      · rw [if_pos hf]
      · rw [if_neg hf]
        rfl
  | str s2 =>
      unfold acceptParsed
      dsimp only
      by_cases hf : jvalFalsy (JVal.str s2) = true
      · rw [if_pos hf]
      · rw [if_neg hf]
        rfl
  | obj fields =>
      unfold acceptParsed
      dsimp only
      rw [if_neg (by simp [jvalFalsy])]
      unfold dataFieldArr at hnd
      cases hgp : jsGetProp (JVal.obj fields) dataKey with
      | none => rfl
      | some w =>
          rw [hgp] at hnd
          cases w with
          | arr l => exact Bool.noConfusion hnd
          | null => rfl
          | bool b => rfl
          | num lex => rfl
          | str s3 => rfl
          | obj fs => rfl

/-- C9 counterexample: a truthy non-string content — exactly what the
handler passes to `parseLLMJson` when the upstream content is a list of
blocks — makes `content.replace` raise an uncaught TypeError, so an
exception does escape `parseLLMJson` for that content input. -/
theorem c9_nonstring_content_throws :
    parseLLMJsonJS (JVal.arr [JVal.obj [(textKey, JVal.str (("hello").toList))]])
      = JsResult.throw := rfl

/-- C9 (amended): for every string content input, `parseLLMJson` lets no
exception escape — it returns a value — and it returns null whenever the
stripped text fails to parse as JSON, and whenever the parsed value is
neither a bare array nor an object carrying an array `data` field. -/
theorem c9_strings_never_throw (s : List Char) :
    parseLLMJsonJS (JVal.str s) = JsResult.ret (parseLLMJson s) ∧
    (jsonParse (trimJS (stripFences s)) = none → parseLLMJson s = none) ∧
    (∀ v, jsonParse (trimJS (stripFences s)) = some v →
      isArrJ v = false → dataFieldArr v = false → parseLLMJson s = none) := by
  refine ⟨rfl, ?_, ?_⟩
  · intro h
    unfold parseLLMJson
    by_cases hs : s.isEmpty = true
    · rw [if_pos hs]
    · rw [if_neg hs, h]
      rfl
  · intro v hv hna hnd
    unfold parseLLMJson
    by_cases hs : s.isEmpty = true
    · rw [if_pos hs]
    · rw [if_neg hs, hv, acceptParsed_not_accepted v hna hnd]

/-- C9 witness: the string content `"5"` parses to a bare number, which is
neither accepted shape, so the result is null and no exception occurred. -/
theorem c9_strings_never_throw_witness :
    parseLLMJsonJS (JVal.str ['5']) = JsResult.ret (parseLLMJson ['5']) ∧
    parseLLMJson ['5'] = none :=
  ⟨(c9_strings_never_throw ['5']).1,
   (c9_strings_never_throw ['5']).2.2 (JVal.num ['5']) rfl rfl rfl⟩

/-! ### Code-fence stripping lemmas -/

theorem stripFencesF_nil (f : Nat) : stripFencesF f [] = [] := by
  cases f <;> rfl

/-- The fuel of `stripFencesF` is irrelevant as long as it exceeds the
input length. -/
theorem stripFencesF_congr : ∀ (f g : Nat) (s : List Char),
    s.length < f → s.length < g → stripFencesF f s = stripFencesF g s := by
  intro f
  induction f with
  | zero => intro g s hf _; omega
  | succ f ihf =>
      intro g s hf hg
      cases g with
      | zero => omega
      | succ g =>
          cases s with
          | nil => rfl
          | cons c rest =>
              simp only [stripFencesF]
              by_cases hc : c = btk
              · rw [if_pos hc, if_pos hc]
                cases rest with
                | nil =>
                    dsimp only
                    rw [stripFencesF_nil, stripFencesF_nil]
                | cons c2 rest' =>
                    cases rest' with
                    | nil =>
                        dsimp only
                        simp only [List.length_cons, List.length_nil] at hf hg
                        rw [ihf g [c2]
                          (by simp only [List.length_cons, List.length_nil]; omega)
                          (by simp only [List.length_cons, List.length_nil]; omega)]
                    | cons c3 rest2 =>
                        dsimp only
                        simp only [List.length_cons] at hf hg
                        by_cases hbb : c2 = btk ∧ c3 = btk
                        · rw [if_pos hbb, if_pos hbb]
                          by_cases hj : rest2.take 4 = ['j', 's', 'o', 'n']
                          · rw [if_pos hj, if_pos hj]
                            exact ihf g (rest2.drop 4)
                              (by rw [List.length_drop]; omega)
                              (by rw [List.length_drop]; omega)
                          · rw [if_neg hj, if_neg hj]
                            exact ihf g rest2 (by omega) (by omega)
                        · rw [if_neg hbb, if_neg hbb]
                          rw [ihf g (c2 :: c3 :: rest2) (by simp; omega) (by simp; omega)]
              · rw [if_neg hc, if_neg hc]
                simp only [List.length_cons] at hf hg
                rw [ihf g rest (by omega) (by omega)]

/-- Removing a leading ```` ```json ```` tag (three backticks and the
letters `json`) is one scan step. -/
theorem stripFencesF_json_head (f : Nat) (p : List Char) :
    stripFencesF (f + 1) ([btk, btk, btk, 'j', 's', 'o', 'n'] ++ p) = stripFencesF f p := by
  simp [stripFencesF]

/-- Removing a leading plain ```` ``` ```` fence is one scan step provided
the payload does not itself continue with the letters `json`. -/
theorem stripFencesF_ticks_head (f : Nat) (p : List Char)
    (h : p.take 4 ≠ ['j', 's', 'o', 'n']) :
    stripFencesF (f + 1) ([btk, btk, btk] ++ p) = stripFencesF f p := by
  simp [stripFencesF, h]

/-- If the first four characters of `q` are not `json`, appending the
closing fence cannot make them `json` (a backtick is none of the four
letters). -/
theorem take4_append_ticks_ne (q : List Char) (hq : q.take 4 ≠ ['j', 's', 'o', 'n']) :
    (q ++ [btk, btk, btk]).take 4 ≠ ['j', 's', 'o', 'n'] := by
  match q with
  | a :: b :: c :: d :: rest =>
      intro hcontra
      exact hq (by simpa using hcontra)
  | [] =>
      intro hcontra
      rw [List.nil_append] at hcontra
      exact absurd hcontra (by decide)

  | [a] =>
      intro hcontra
      simp only [List.cons_append, List.nil_append] at hcontra
      simp only [List.take, List.cons.injEq] at hcontra
      exact absurd hcontra.2.1 (by decide)
  | [a, b] =>
      intro hcontra
      simp only [List.cons_append, List.nil_append] at hcontra
      simp only [List.take, List.cons.injEq] at hcontra
      exact absurd hcontra.2.2.1 (by decide)
  | [a, b, c] =>
      intro hcontra
      simp only [List.cons_append, List.nil_append] at hcontra
      simp only [List.take, List.cons.injEq] at hcontra
      exact absurd hcontra.2.2.2.1 (by decide)

/-- One scan step: a triple backtick followed by `json` removes all seven
characters. -/
theorem stripF_stepJson (f : Nat) (rest2 : List Char)
    (hj : rest2.take 4 = ['j', 's', 'o', 'n']) :
    stripFencesF (f + 1) (btk :: btk :: btk :: rest2) = stripFencesF f (rest2.drop 4) := by
  simp only [stripFencesF, and_self, if_true]
  rw [if_pos hj]

/-- One scan step: a triple backtick not followed by `json` removes just
the three backticks. -/
theorem stripF_stepTicks (f : Nat) (rest2 : List Char)
    (hj : rest2.take 4 ≠ ['j', 's', 'o', 'n']) :
    stripFencesF (f + 1) (btk :: btk :: btk :: rest2) = stripFencesF f rest2 := by
  simp only [stripFencesF, and_self, if_true]
  rw [if_neg hj]

/-- One scan step: a backtick not starting a triple match is kept. -/
theorem stripF_stepNoTriple (f : Nat) (c2 c3 : Char) (rest2 : List Char)
    (h : ¬ (c2 = btk ∧ c3 = btk)) :
    stripFencesF (f + 1) (btk :: c2 :: c3 :: rest2)
      = btk :: stripFencesF f (c2 :: c3 :: rest2) := by
  simp only [stripFencesF, if_true]
  rw [if_neg h]

/-- One scan step: a final lone backtick is kept. -/
theorem stripF_stepOne (f : Nat) :
    stripFencesF (f + 1) [btk] = btk :: stripFencesF f [] := by
  simp only [stripFencesF, if_true]

/-- One scan step: a backtick followed by a single character is kept. -/
theorem stripF_stepTwo (f : Nat) (c2 : Char) :
    stripFencesF (f + 1) [btk, c2] = btk :: stripFencesF f [c2] := by
  simp only [stripFencesF, if_true]

/-- One scan step: a non-backtick character is kept. -/
theorem stripF_stepOther (f : Nat) (c : Char) (rest : List Char) (hc : c ≠ btk) :
    stripFencesF (f + 1) (c :: rest) = c :: stripFencesF f rest := by
  simp only [stripFencesF]
  rw [if_neg hc]


/-- Appending the closing fence never changes the stripped result: the
scan either consumes the appended backticks as their own match or leaves
trailing payload backticks exactly as it would have left them. -/
theorem stripFencesF_append_ticks :
    ∀ (f : Nat) (p : List Char), p.length + 4 ≤ f →
      stripFencesF f (p ++ [btk, btk, btk]) = stripFencesF f p := by
  intro f
  induction f with
  | zero => intro p hp; omega
  | succ f ihf =>
      intro p hp
      cases p with
      | nil =>
          simp only [List.nil_append]
          rw [stripF_stepTicks f [] (by decide)]
          rw [stripFencesF_nil, stripFencesF_nil]
      | cons c rest =>
          simp only [List.cons_append]
          by_cases hc : c = btk
          · subst hc
            cases rest with
            | nil =>
                simp only [List.length_cons, List.length_nil] at hp
                simp only [List.nil_append]
                rw [stripF_stepTicks f [btk] (by decide)]
                exact stripFencesF_congr f (f + 1) [btk]
                  (by simp only [List.length_cons, List.length_nil]; omega)
                  (by simp only [List.length_cons, List.length_nil]; omega)
            | cons c2 rest' =>
                cases rest' with
                | nil =>
                    simp only [List.length_cons, List.length_nil] at hp
                    simp only [List.cons_append, List.nil_append]
                    by_cases hc2 : c2 = btk
                    · subst hc2
                      rw [stripF_stepTicks f [btk, btk] (by decide)]
                      exact stripFencesF_congr f (f + 1) [btk, btk]
                        (by simp only [List.length_cons, List.length_nil]; omega)
                        (by simp only [List.length_cons, List.length_nil]; omega)
                    · rw [stripF_stepNoTriple f c2 btk [btk, btk] (fun hand => hc2 hand.1)]
                      rw [stripF_stepTwo f c2]
                      have hih := ihf [c2] (by simp only [List.length_cons, List.length_nil]; omega)
                      simp only [List.cons_append, List.nil_append] at hih
                      rw [hih]
                | cons c3 rest2 =>
                    simp only [List.length_cons] at hp
                    simp only [List.cons_append]
                    by_cases hbb : c2 = btk ∧ c3 = btk
                    · obtain ⟨h2, h3⟩ := hbb
                      subst h2
                      subst h3
                      by_cases hj : rest2.take 4 = ['j', 's', 'o', 'n']
                      · have hlen4 : 4 ≤ rest2.length := by
                          have hlt := congrArg List.length hj
                          simp only [List.length_take, List.length_cons,
                            List.length_nil] at hlt
                          omega
                        have htake : (rest2 ++ [btk, btk, btk]).take 4 = ['j', 's', 'o', 'n'] := by
                          rw [List.take_append_eq_append_take]
                          rw [Nat.sub_eq_zero_of_le hlen4]
                          simp [hj]
                        rw [stripF_stepJson f (rest2 ++ [btk, btk, btk]) htake]
                        rw [stripF_stepJson f rest2 hj]
                        rw [List.drop_append_eq_append_drop]
                        rw [Nat.sub_eq_zero_of_le hlen4]
                        simp only [List.drop_zero]
                        exact ihf (rest2.drop 4) (by rw [List.length_drop]; omega)
                      · have htake : ¬ (rest2 ++ [btk, btk, btk]).take 4 = ['j', 's', 'o', 'n'] :=
                          take4_append_ticks_ne rest2 hj
                        rw [stripF_stepTicks f (rest2 ++ [btk, btk, btk]) htake]
                        rw [stripF_stepTicks f rest2 hj]
                        exact ihf rest2 (by omega)
                    · rw [stripF_stepNoTriple f c2 c3 (rest2 ++ [btk, btk, btk]) hbb]
                      rw [stripF_stepNoTriple f c2 c3 rest2 hbb]
                      have hih := ihf (c2 :: c3 :: rest2)
                        (by simp only [List.length_cons]; omega)
                      simp only [List.cons_append] at hih
                      rw [hih]
          · rw [stripF_stepOther f c (rest ++ [btk, btk, btk]) hc]
            rw [stripF_stepOther f c rest hc]
            have hih := ihf rest (by simp only [List.length_cons] at hp; omega)
            rw [hih]

/-- Wrapping a payload in a ```` ```json ```` opening tag and a closing
```` ``` ```` fence strips to the bare payload. -/
theorem stripFences_json_wrap (p : List Char) :
    stripFences ([btk, btk, btk, 'j', 's', 'o', 'n'] ++ p ++ [btk, btk, btk])
      = stripFences p := by
  unfold stripFences
  have hlen : ([btk, btk, btk, 'j', 's', 'o', 'n'] ++ p ++ [btk, btk, btk]).length
      = p.length + 10 := by
    simp [List.length_append]
  rw [hlen, List.append_assoc]
  rw [stripFencesF_json_head (p.length + 10) (p ++ [btk, btk, btk])]
  rw [stripFencesF_append_ticks (p.length + 10) p (by omega)]
  exact stripFencesF_congr _ _ p (by omega) (by omega)

/-- Wrapping a payload in plain ```` ``` ```` fences strips to the bare
payload, provided the payload does not itself start with the letters
`json` (which would merge with the opening fence into a ```` ```json ````
match and be eaten). -/
theorem stripFences_ticks_wrap (p : List Char) (h : p.take 4 ≠ ['j', 's', 'o', 'n']) :
    stripFences ([btk, btk, btk] ++ p ++ [btk, btk, btk]) = stripFences p := by
  unfold stripFences
  have hlen : ([btk, btk, btk] ++ p ++ [btk, btk, btk]).length = p.length + 6 := by
    simp [List.length_append]
  rw [hlen, List.append_assoc]
  rw [stripFencesF_ticks_head (p.length + 6) (p ++ [btk, btk, btk])
    (take4_append_ticks_ne p h)]
  rw [stripFencesF_append_ticks (p.length + 6) p (by omega)]
  exact stripFencesF_congr _ _ p (by omega) (by omega)

/-- Two nonempty contents that strip to the same text parse identically. -/
theorem parseLLMJson_strip_congr (a b : List Char) (ha : a ≠ []) (hb : b ≠ [])
    (hstrip : stripFences a = stripFences b) : parseLLMJson a = parseLLMJson b := by
  unfold parseLLMJson
  rw [if_neg (by simpa [List.isEmpty_iff] using ha),
    if_neg (by simpa [List.isEmpty_iff] using hb), hstrip]

/-- C7 counterexample: wrapping the payload `json[1,2]` in plain triple
backticks changes the parse: the opening fence merges with the payload's
leading `json` into a ```` ```json ```` match, the stripped text becomes
the valid JSON `[1,2]`, and the fenced content parses to a two-element
list while the unfenced payload parses to null. -/
theorem c7_fence_changes_parse :
    parseLLMJson (("```json[1,2]```").toList) ≠ parseLLMJson (("json[1,2]").toList) := by
  intro hEq
  rw [show parseLLMJson (("```json[1,2]```").toList)
      = some [JVal.num ['1'], JVal.num ['2']] from rfl] at hEq
  rw [show parseLLMJson (("json[1,2]").toList) = (none : Option (List JVal)) from rfl] at hEq
  exact Option.noConfusion hEq

/-- C7 (amended): wrapping a payload in code-fence markers does not change
the result of `parseLLMJson` — unconditionally for an opening fence with
the `json` language tag, and for plain triple-backtick fences whenever the
payload does not itself begin with the four letters `json` (`btk` is the
backtick character). -/
theorem c7_fence_wrap_invariance (p : List Char) :
    parseLLMJson ([btk, btk, btk, 'j', 's', 'o', 'n'] ++ p ++ [btk, btk, btk])
      = parseLLMJson p ∧
    (p.take 4 ≠ ['j', 's', 'o', 'n'] →
      parseLLMJson ([btk, btk, btk] ++ p ++ [btk, btk, btk]) = parseLLMJson p) := by
  constructor
  · by_cases hp : p = []
    · subst hp
      rfl
    · rw [parseLLMJson_strip_congr _ p (by simp) hp (stripFences_json_wrap p)]
  · intro h
    by_cases hp : p = []
    · subst hp
      rfl
    · rw [parseLLMJson_strip_congr _ p (by simp) hp (stripFences_ticks_wrap p h)]

/-- C7 witness: the payload `[1]` (which does not start with `json`) keeps
its parse under both fence styles. -/
theorem c7_fence_wrap_invariance_witness :
    parseLLMJson ([btk, btk, btk, 'j', 's', 'o', 'n'] ++ ('[' :: '1' :: ']' :: [])
        ++ [btk, btk, btk])
      = parseLLMJson ('[' :: '1' :: ']' :: []) ∧
    parseLLMJson ([btk, btk, btk] ++ ('[' :: '1' :: ']' :: []) ++ [btk, btk, btk])
      = parseLLMJson ('[' :: '1' :: ']' :: []) :=
  ⟨(c7_fence_wrap_invariance ('[' :: '1' :: ']' :: [])).1,
   (c7_fence_wrap_invariance ('[' :: '1' :: ']' :: [])).2 (by decide)⟩

/-! ### Idempotence of the repaired texts -/

theorem leadsWith_append {n h : List Char} (zs : List Char)
    (hl : leadsWith n h = true) : leadsWith n (h ++ zs) = true := by
  induction n generalizing h with
  | nil => rfl
  | cons c cs ih =>
      cases h with
      | nil => exact absurd hl (by simp [leadsWith])
      | cons d ds =>
          simp only [leadsWith, Bool.and_eq_true] at hl
          simp only [List.cons_append, leadsWith, Bool.and_eq_true]
          exact ⟨hl.1, ih hl.2⟩

theorem containsSub_nil_left : ∀ (l : List Char), containsSub [] l = true := by
  intro l
  cases l with
  | nil => rfl
  | cons c rest => simp [containsSub, leadsWith]

theorem containsSub_append {n h : List Char} (zs : List Char)
    (hc : containsSub n h = true) : containsSub n (h ++ zs) = true := by
  induction h with
  | nil =>
      simp only [containsSub, List.isEmpty_iff] at hc
      subst hc
      exact containsSub_nil_left zs
  | cons c rest ih =>
      simp only [containsSub, Bool.or_eq_true] at hc
      simp only [List.cons_append, containsSub, Bool.or_eq_true]
      rcases hc with hl | hr
      · exact Or.inl (by simpa [List.cons_append] using leadsWith_append zs hl)
      · exact Or.inr (ih hr)

theorem hasEmpathy_append (t zs : List Char) (h : hasEmpathy t = true) :
    hasEmpathy (t ++ zs) = true := by
  simp only [hasEmpathy, List.any_eq_true] at h ⊢
  obtain ⟨tok, hmem, htok⟩ := h
  exact ⟨tok, hmem, containsSub_append zs htok⟩

/-- A string fixed by trimming is fixed by each of the two one-sided
whitespace-dropping passes. -/
theorem trim_fix_parts (t : List Char) (ht : trimJS t = t) :
    t.dropWhile isJsWs = t ∧ t.reverse.dropWhile isJsWs = t.reverse := by
  have h1 : (t.dropWhile isJsWs) <:+ t := List.dropWhile_suffix _
  have h2 : ((t.dropWhile isJsWs).reverse.dropWhile isJsWs) <:+ (t.dropWhile isJsWs).reverse :=
    List.dropWhile_suffix _
  have hlen : t.length = ((t.dropWhile isJsWs).reverse.dropWhile isJsWs).length := by
    conv_lhs => rw [← ht]
    simp [trimJS]
  have hlen2 : ((t.dropWhile isJsWs).reverse.dropWhile isJsWs).length
      ≤ (t.dropWhile isJsWs).length := by
    simpa using h2.length_le
  have hlen1 : (t.dropWhile isJsWs).length ≤ t.length := h1.length_le
  have hd : t.dropWhile isJsWs = t := h1.eq_of_length (by omega)
  refine ⟨hd, ?_⟩
  rw [hd] at hlen
  have h3 : (t.reverse.dropWhile isJsWs) <:+ t.reverse := List.dropWhile_suffix _
  apply h3.eq_of_length
  simp only [List.length_reverse]
  omega

/-- Appending a non-whitespace character preserves trim-fixedness. -/
theorem trim_append_nonws (t : List Char) (c : Char) (ht : trimJS t = t)
    (hc : isJsWs c = false) : trimJS (t ++ [c]) = t ++ [c] := by
  obtain ⟨hd, _⟩ := trim_fix_parts t ht
  unfold trimJS
  have hfront : (t ++ [c]).dropWhile isJsWs = t ++ [c] := by
    cases t with
    | nil => simp [List.dropWhile, hc]
    | cons x xs =>
        have hx : isJsWs x = false := by
          by_contra hxx
          simp only [Bool.not_eq_false] at hxx
          simp only [List.dropWhile, hxx] at hd
          have := congrArg List.length hd
          have hle : (xs.dropWhile isJsWs).length ≤ xs.length :=
            (List.dropWhile_suffix _).length_le
          simp only [List.length_cons] at this
          omega
        simp [List.cons_append, List.dropWhile, hx]
  rw [hfront]
  have hback : (t ++ [c]).reverse.dropWhile isJsWs = (t ++ [c]).reverse := by
    rw [List.reverse_append]
    simp only [List.reverse_cons, List.reverse_nil, List.nil_append, List.cons_append,
      List.dropWhile, hc]
    rfl
  rw [hback]
  simp

/-- Appending a non-whitespace character commutes with whitespace
collapsing. -/
theorem collapseWsAux_append_nonws :
    ∀ (t : List Char) (b : Bool) (c : Char), isJsWs c = false →
      collapseWsAux b (t ++ [c]) = collapseWsAux b t ++ [c] := by
  intro t
  induction t with
  | nil =>
      intro b c hc
      simp [collapseWsAux, hc]
  | cons x xs ih =>
      intro b c hc
      simp only [List.cons_append, collapseWsAux]
      by_cases hx : isJsWs x = true
      · rw [hx]
        simp only [if_true]
        cases b with
        | true => simpa using ih true c hc
        | false => simpa [List.cons_append] using congrArg (' ' :: ·) (ih true c hc)
      · simp only [Bool.not_eq_true] at hx
        rw [hx]
        simpa [List.cons_append] using congrArg (x :: ·) (ih false c hc)

theorem collapse_append_nonws (t : List Char) (c : Char) (hco : collapseWs t = t)
    (hc : isJsWs c = false) : collapseWs (t ++ [c]) = t ++ [c] := by
  unfold collapseWs at hco ⊢
  rw [collapseWsAux_append_nonws t false c hc, hco]

/-- On an empathy-marked, whitespace-normalized, in-bounds text the whole
repair reduces to at most appending the closing period. -/
theorem enforce_fixform (t word : List Char) (htok : hasEmpathy t = true)
    (htr : trimJS t = t) (hco : collapseWs t = t)
    (h10 : 10 ≤ t.length) (h70 : t.length ≤ 70) :
    enforceConstraints t word
      = if ¬ endsPunc t = true ∧ t.length ≤ 68 then t ++ ['。'] else t := by
  have hemp : ensureEmpathy t = t := by
    unfold ensureEmpathy
    rw [if_pos htok]
  have hclamp : clampLength (ensureEmpathy t) word = t := by
    rw [hemp]
    simp only [clampLength]
    rw [htr, hco]
    have h1 : (if 70 < t.length then
          (if 10 ≤ lastPuncZ (List.take 70 t) then
            List.take ((lastPuncZ (List.take 70 t)).toNat + 1) (List.take 70 t)
          else List.take 70 t)
        else t) = t := if_neg (by omega)
    rw [h1]
    rw [if_neg (by omega)]
  simp only [enforceConstraints]
  rw [hclamp]
  have h2 : (if 70 < t.length then List.take 70 t else t) = t := if_neg (by omega)
  rw [h2]

/-- The repair is idempotent on empathy-marked, whitespace-normalized,
in-bounds texts. -/
theorem enforce_idem (t word : List Char) (htok : hasEmpathy t = true)
    (htr : trimJS t = t) (hco : collapseWs t = t)
    (h10 : 10 ≤ t.length) (h70 : t.length ≤ 70) :
    enforceConstraints (enforceConstraints t word) word = enforceConstraints t word := by
  rw [enforce_fixform t word htok htr hco h10 h70]
  by_cases hcond : ¬ endsPunc t = true ∧ t.length ≤ 68
  · rw [if_pos hcond]
    have htok2 := hasEmpathy_append t ['。'] htok
    have htr2 := trim_append_nonws t '。' htr (by decide)
    have hco2 := collapse_append_nonws t '。' hco (by decide)
    have hlen2 : (t ++ ['。']).length = t.length + 1 := by simp
    have hP : endsPunc (t ++ ['。']) = true := by
      unfold endsPunc
      rw [List.getLast?_concat]
      rfl
    rw [enforce_fixform (t ++ ['。']) word htok2 htr2 hco2 (by omega) (by omega)]
    rw [if_neg (fun hand => hand.1 hP)]
  · rw [if_neg hcond]
    rw [enforce_fixform t word htok htr hco h10 h70]
    rw [if_neg hcond]

theorem enumFrom_get? {α : Type} :
    ∀ (n : Nat) (l : List α) (i : Nat),
      (List.enumFrom n l).get? i = (l.get? i).map (fun a => (n + i, a)) := by
  intro n l
  induction l generalizing n with
  | nil => intro i; simp [List.enumFrom]
  | cons x xs ih =>
      intro i
      cases i with
      | zero => simp [List.enumFrom]
      | succ j =>
          simp only [List.enumFrom, List.get?]
          rw [ih (n + 1) j]
          have harith : n + 1 + j = n + (j + 1) := by omega
          rw [harith]

theorem mkItems_get? (texts : List (List Char)) (i : Nat) (t : List Char)
    (h : texts.get? i = some t) :
    (mkItems texts).get? i
      = some (JVal.obj [(speakerKey, JVal.str (speakerAt i)), (textKey, JVal.str t)]) := by
  unfold mkItems
  rw [List.get?_map]
  rw [show (List.enum texts : List (Nat × List Char)) = List.enumFrom 0 texts from rfl]
  rw [enumFrom_get? 0 texts i, h]
  simp

theorem turnsToItems_get? (d : List Turn) (i : Nat) (tn : Turn) (h : d.get? i = some tn) :
    (turnsToItems d).get? i
      = some (JVal.obj [(speakerKey, JVal.str tn.speaker), (textKey, JVal.str tn.text)]) := by
  unfold turnsToItems
  rw [List.get?_map, h]
  rfl

theorem rawTextOf_obj (l : List JVal) (i : Nat) (sp tx : List Char)
    (h : l.get? i = some (JVal.obj [(speakerKey, JVal.str sp), (textKey, JVal.str tx)])) :
    rawTextOf (some l) i = tx := by
  simp only [rawTextOf, Option.getD]
  rw [h]
  rfl

/-- C8 (amended): on a candidate list of exactly 20 turn objects whose
speakers already alternate A/B starting at A and whose texts each contain
an empathetic marker phrase, are whitespace-normalized (fixed by trimming
and by whitespace-run collapsing), and have length in `[10, 70]`,
`sanitizeAndCoerce20` is idempotent: applied to its own output it returns
that output again. -/
theorem c8_enforce_idempotent (texts : List (List Char)) (word : List Char)
    (hlen : texts.length = 20)
    (hall : ∀ t ∈ texts, hasEmpathy t = true ∧ trimJS t = t ∧ collapseWs t = t ∧
      10 ≤ t.length ∧ t.length ≤ 70) :
    ∃ d, sanitizeAndCoerce20 (some (mkItems texts)) word = some d ∧
      sanitizeAndCoerce20 (some (turnsToItems d)) word = some d := by
  refine ⟨withClosing (some (mkItems texts)) word, sanitize_total _ _, ?_⟩
  rw [sanitize_total]
  refine congrArg some ?_
  apply List.ext
  intro i
  by_cases hi : i < 20
  · rw [withClosing_get? _ _ hi, withClosing_get? _ _ hi]
    by_cases h19 : i = 19
    · rw [if_pos h19, if_pos h19]
    · rw [if_neg h19, if_neg h19]
      have hlt : i < texts.length := by omega
      have ht : texts.get? i = some (texts.get ⟨i, hlt⟩) := List.get?_eq_get hlt
      obtain ⟨htok, htr, hco, h10, h70⟩ := hall _ (List.get?_mem ht)
      have hraw1 : rawTextOf (some (mkItems texts)) i = texts.get ⟨i, hlt⟩ :=
        rawTextOf_obj _ i (speakerAt i) _ (mkItems_get? texts i _ ht)
      have hd : (withClosing (some (mkItems texts)) word).get? i
          = some (baseTurn (some (mkItems texts)) word i) := by
        rw [withClosing_get? _ _ hi, if_neg h19]
      have hraw2 : rawTextOf (some (turnsToItems (withClosing (some (mkItems texts)) word))) i
          = enforceConstraints (texts.get ⟨i, hlt⟩) word := by
        rw [rawTextOf_obj _ i _ _ (turnsToItems_get? _ i _ hd)]
        rw [baseTurn_text, hraw1]
      unfold baseTurn
      rw [hraw1, hraw2]
      rw [enforce_idem _ word htok htr hco h10 h70]
  · have h1 : (withClosing (some (turnsToItems
        (withClosing (some (mkItems texts)) word))) word).get? i = none := by
      rw [List.get?_eq_none, length_withClosing]
      omega
    have h2 : (withClosing (some (mkItems texts)) word).get? i = none := by
      rw [List.get?_eq_none, length_withClosing]
      omega
    rw [h1, h2]

/-- Twenty identical well-formed candidate texts. -/
def c8W : List (List Char) := List.replicate 20 (("たしかに、それはそうだよね。").toList)

/-- C8 witness: twenty marker-carrying, normalized, in-bounds texts give a
dialogue on which a second run of the enforcer is the identity. -/
theorem c8_enforce_idempotent_witness :
    ∃ d, sanitizeAndCoerce20 (some (mkItems c8W)) [] = some d ∧
      sanitizeAndCoerce20 (some (turnsToItems d)) [] = some d :=
  c8_enforce_idempotent c8W [] rfl
    (fun t ht => by
      rw [List.eq_of_mem_replicate ht]
      exact ⟨by decide, by decide, by decide, by decide, by decide⟩)

/-- A 67-character text with an internal space and no empathy marker. -/
def cexLong : List Char := List.replicate 65 'あ' ++ (' ' :: 'あ' :: [])

/-- An easy in-bounds companion text. -/
def cexEasy : List Char := ("たしかに、そうだよね。").toList

/-- Twenty candidate texts inside the claim's domain (all lengths in
`[10, 70]`, speakers alternating via `mkItems`). -/
def cexTexts : List (List Char) := cexLong :: List.replicate 19 cexEasy

/-- The first run's output on `cexTexts`. -/
def cexD8 : List Turn := withClosing (some (mkItems cexTexts)) []

set_option maxRecDepth 100000 in
/-- C8 counterexample: a 20-object candidate list with alternating
speakers and all text lengths in `[10, 70]` on which `sanitizeAndCoerce20`
is not idempotent.  The first text has no empathy marker, so the repair
prepends one, pushing it to 71 characters; the 70-character hard cut then
ends in a space, which the second run's trim removes, giving a different
(69-character) text. -/
theorem c8_not_idempotent :
    cexTexts.length = 20 ∧
    (∀ t ∈ cexTexts, 10 ≤ t.length ∧ t.length ≤ 70) ∧
    sanitizeAndCoerce20 (some (mkItems cexTexts)) [] = some cexD8 ∧
    sanitizeAndCoerce20 (some (turnsToItems cexD8)) [] ≠ some cexD8 := by
  refine ⟨rfl, by decide, sanitize_total _ _, ?_⟩
  decide

end SatireChat
